import Mathlib

/-!
Verification development for the RevaultPass store core (src/main.rs).

Bytes are modelled as `List Nat`.  The external cryptographic collaborators
(argon2id key derivation, ChaCha20Poly1305 AEAD) and the serde_json record
serializer are not code of this repository; they are modelled as ideal
computable functions exposing exactly the interface properties the code
relies on: the KDF is deterministic and collision-free, the AEAD keeps the
body verbatim and appends a 16-entry authentication tag that is an injective
fingerprint of (key, nonce, plaintext), and the serializer is an injective
byte encoding with a partial inverse that fails on non-well-formed input.
The container codec, store loading/saving and the command dispatch are
translated directly from src/main.rs.
-/

namespace RevaultPass

/-! ### Injective numeric encodings (machinery for the ideal crypto model) -/

/-- Little-endian binary digits of a natural number, with explicit fuel so
that the definition is structural and kernel-reducible. -/
def bitsF : Nat → Nat → List Nat
  | _, 0 => []
  | 0, _ + 1 => []
  | f + 1, n + 1 => (n + 1) % 2 :: bitsF f ((n + 1) / 2)

/-- Little-endian binary digits of a natural number. -/
def bits (n : Nat) : List Nat := bitsF n n

/-- Inverse of `bits`: read little-endian binary digits. -/
def unbits (l : List Nat) : Nat := l.foldr (fun d acc => d + 2 * acc) 0

/-- Read a list of base-3 digits (little-endian) as a natural number. -/
def fromTern (l : List Nat) : Nat := l.foldr (fun d acc => d + 3 * acc) 0

/-- Each number becomes its binary digits followed by the separator digit 2. -/
def blocks (l : List Nat) : List Nat := l.flatMap (fun n => bits n ++ [2])

/-- Injective encoding of a list of naturals into one natural: read the
separator-terminated binary digit blocks as a base-3 numeral. -/
def encodeL (l : List Nat) : Nat := fromTern (blocks l)

theorem bitsF_fuel : ∀ f g n, n ≤ f → n ≤ g → bitsF f n = bitsF g n := by
  intro f
  induction f with
  | zero =>
    intro g n hf _
    have hn : n = 0 := Nat.le_zero.mp hf
    subst hn
    cases g <;> rfl
  | succ f ih =>
    intro g n hf hg
    cases n with
    | zero => cases g <;> rfl
    | succ n =>
      cases g with
      | zero => omega
      | succ g =>
        have hx : (n + 1) / 2 ≤ n := by omega
        show (n + 1) % 2 :: bitsF f ((n + 1) / 2)
            = (n + 1) % 2 :: bitsF g ((n + 1) / 2)
        rw [ih g ((n + 1) / 2) (by omega) (by omega)]

theorem bits_succ (n : Nat) :
    bits (n + 1) = (n + 1) % 2 :: bits ((n + 1) / 2) := by
  show (n + 1) % 2 :: bitsF n ((n + 1) / 2)
      = (n + 1) % 2 :: bitsF ((n + 1) / 2) ((n + 1) / 2)
  rw [bitsF_fuel n ((n + 1) / 2) ((n + 1) / 2) (by omega) le_rfl]

theorem unbits_bits : ∀ n, unbits (bits n) = n := by
  intro n
  induction n using Nat.strong_induction_on with
  | _ n ih =>
    cases n with
    | zero => rfl
    | succ n =>
      rw [bits_succ]
      show (n + 1) % 2 + 2 * unbits (bits ((n + 1) / 2)) = n + 1
      rw [ih ((n + 1) / 2) (by omega)]
      omega

theorem bits_inj {m n : Nat} (h : bits m = bits n) : m = n := by
  have hm := unbits_bits m
  rw [h, unbits_bits] at hm
  omega

theorem bits_lt_two : ∀ n, ∀ x ∈ bits n, x < 2 := by
  intro n
  induction n using Nat.strong_induction_on with
  | _ n ih =>
    cases n with
    | zero => intro x hx; cases hx
    | succ n =>
      rw [bits_succ]
      intro x hx
      rcases List.mem_cons.mp hx with h | h
      · subst h; omega
      · exact ih ((n + 1) / 2) (by omega) x h

/-- A list of digits whose last element (if any) is the separator 2. -/
def endsInTwo : List Nat → Prop
  | [] => True
  | [x] => x = 2
  | _ :: x :: xs => endsInTwo (x :: xs)

theorem fromTern_pos : ∀ l : List Nat, l ≠ [] → endsInTwo l → 0 < fromTern l := by
  intro l
  induction l with
  | nil => intro h; exact absurd rfl h
  | cons a l ih =>
    intro _ h2
    cases l with
    | nil =>
      have ha : a = 2 := h2
      subst ha
      decide
    | cons b l =>
      have hp : 0 < fromTern (b :: l) := ih (by simp) h2
      show 0 < a + 3 * fromTern (b :: l)
      omega

theorem fromTern_inj : ∀ l1 l2 : List Nat, (∀ x ∈ l1, x < 3) → (∀ x ∈ l2, x < 3) →
    endsInTwo l1 → endsInTwo l2 → fromTern l1 = fromTern l2 → l1 = l2 := by
  intro l1
  induction l1 with
  | nil =>
    intro l2 _ _ _ e2 h
    cases l2 with
    | nil => rfl
    | cons b l2 =>
      exfalso
      have hp := fromTern_pos (b :: l2) (by simp) e2
      have h0 : (0 : Nat) = fromTern (b :: l2) := h
      omega
  | cons a l1 ih =>
    intro l2 h1 h2 e1 e2 h
    cases l2 with
    | nil =>
      exfalso
      have hp := fromTern_pos (a :: l1) (by simp) e1
      have h0 : fromTern (a :: l1) = 0 := h
      omega
    | cons b l2 =>
      have ha : a < 3 := h1 a (by simp)
      have hb : b < 3 := h2 b (by simp)
      have hstep : a + 3 * fromTern l1 = b + 3 * fromTern l2 := h
      have hab : a = b := by omega
      have htail : fromTern l1 = fromTern l2 := by omega
      subst hab
      cases l1 with
      | nil =>
        cases l2 with
        | nil => rfl
        | cons c l2 =>
          exfalso
          have hp := fromTern_pos (c :: l2) (by simp) e2
          have h0 : (0 : Nat) = fromTern (c :: l2) := htail
          omega
      | cons c l1 =>
        cases l2 with
        | nil =>
          exfalso
          have hp := fromTern_pos (c :: l1) (by simp) e1
          have h0 : fromTern (c :: l1) = 0 := htail
          omega
        | cons d l2 =>
          have hrec := ih (d :: l2)
            (fun x hx => h1 x (List.mem_cons_of_mem a hx))
            (fun x hx => h2 x (List.mem_cons_of_mem a hx))
            e1 e2 htail
          rw [hrec]

theorem blocks_nil : blocks [] = [] := rfl

theorem blocks_cons (n : Nat) (l : List Nat) :
    blocks (n :: l) = bits n ++ 2 :: blocks l := by
  simp [blocks, List.flatMap_cons]

theorem blocks_lt_three : ∀ l : List Nat, ∀ x ∈ blocks l, x < 3 := by
  intro l
  induction l with
  | nil => intro x hx; cases hx
  | cons a l ih =>
    intro x hx
    rw [blocks_cons] at hx
    rcases List.mem_append.mp hx with h | h
    · have := bits_lt_two a x h; omega
    · rcases List.mem_cons.mp h with h | h
      · omega
      · exact ih x h

theorem endsInTwo_append : ∀ xs ys : List Nat, ys ≠ [] → endsInTwo ys →
    endsInTwo (xs ++ ys) := by
  intro xs
  induction xs with
  | nil => intro ys _ h; simpa using h
  | cons a xs ih =>
    intro ys hne h
    have hne2 : xs ++ ys ≠ [] := by
      intro hc
      rcases List.append_eq_nil.mp hc with ⟨_, h2⟩
      exact hne h2
    obtain ⟨c, cs, hcc⟩ := List.exists_cons_of_ne_nil hne2
    show endsInTwo (a :: (xs ++ ys))
    rw [hcc]
    show endsInTwo (c :: cs)
    rw [← hcc]
    exact ih ys hne h

theorem endsInTwo_blocks : ∀ l : List Nat, endsInTwo (blocks l) := by
  intro l
  induction l with
  | nil => trivial
  | cons a l ih =>
    rw [blocks_cons]
    apply endsInTwo_append
    · simp
    · cases hb : blocks l with
      | nil => show (2 : Nat) = 2; rfl
      | cons c m =>
        show endsInTwo (c :: m)
        rw [← hb]
        exact ih

theorem sep_split : ∀ xs ys zs ws : List Nat, (∀ x ∈ xs, x ≠ 2) → (∀ y ∈ ys, y ≠ 2) →
    xs ++ 2 :: zs = ys ++ 2 :: ws → xs = ys ∧ zs = ws := by
  intro xs
  induction xs with
  | nil =>
    intro ys zs ws _ hy h
    cases ys with
    | nil => simpa using h
    | cons b ys =>
      exfalso
      have hb : (2 : Nat) = b := by
        have := congrArg (fun l => l.head?) h
        simpa using this
      exact hy b (by simp) hb.symm
  | cons a xs ih =>
    intro ys zs ws hx hy h
    cases ys with
    | nil =>
      exfalso
      have ha : a = 2 := by
        have := congrArg (fun l => l.head?) h
        simpa using this
      exact hx a (by simp) ha
    | cons b ys =>
      have hab : a = b ∧ xs ++ 2 :: zs = ys ++ 2 :: ws := by
        have h1 := congrArg (fun l => l.head?) h
        have h2 := congrArg (fun l => l.tail) h
        simp at h1 h2
        exact ⟨h1, h2⟩
      obtain ⟨e1, e2⟩ := ih ys zs ws
        (fun x hm => hx x (List.mem_cons_of_mem a hm))
        (fun y hm => hy y (List.mem_cons_of_mem b hm))
        hab.2
      exact ⟨by rw [hab.1, e1], e2⟩

theorem blocks_inj : ∀ l1 l2 : List Nat, blocks l1 = blocks l2 → l1 = l2 := by
  intro l1
  induction l1 with
  | nil =>
    intro l2 h
    cases l2 with
    | nil => rfl
    | cons b l2 =>
      exfalso
      rw [blocks_cons, blocks_nil] at h
      have := congrArg List.length h
      simp at this
      omega
  | cons a l1 ih =>
    intro l2 h
    cases l2 with
    | nil =>
      exfalso
      rw [blocks_cons, blocks_nil] at h
      have := congrArg List.length h
      simp at this
    | cons b l2 =>
      rw [blocks_cons, blocks_cons] at h
      obtain ⟨e1, e2⟩ := sep_split (bits a) (bits b) (blocks l1) (blocks l2)
        (fun x hm => by have := bits_lt_two a x hm; omega)
        (fun x hm => by have := bits_lt_two b x hm; omega) h
      rw [bits_inj e1, ih l2 e2]

theorem encodeL_inj : ∀ l1 l2 : List Nat, encodeL l1 = encodeL l2 → l1 = l2 := by
  intro l1 l2 h
  exact blocks_inj l1 l2
    (fromTern_inj (blocks l1) (blocks l2)
      (blocks_lt_three l1) (blocks_lt_three l2)
      (endsInTwo_blocks l1) (endsInTwo_blocks l2) h)

/-! ### Ideal models of the external crypto collaborators -/

/-- Injective numeric code of a string (via its character codes). -/
def encodeStrN (s : String) : Nat := encodeL (s.data.map Char.toNat)

theorem char_toNat_inj {c d : Char} (h : c.toNat = d.toNat) : c = d :=
  Char.eq_of_val_eq (UInt32.ext h)

theorem encodeStrN_inj {s t : String} (h : encodeStrN s = encodeStrN t) : s = t := by
  have hl : s.data.map Char.toNat = t.data.map Char.toNat :=
    encodeL_inj _ _ h
  have hd : s.data = t.data :=
    List.map_injective_iff.mpr (fun _ _ hc => char_toNat_inj hc) hl
  cases s; cases t; exact congrArg String.mk (by simpa using hd)

/-- Modelled from the argon2id KDF collaborator (`derive_key` in src/main.rs):
an ideal deterministic, collision-free key derivation producing a 32-entry
key.  The real Argon2id has these properties only computationally. -/
def derive_key (passphrase : String) (salt : List Nat) : List Nat :=
  encodeL [encodeStrN passphrase, encodeL salt] :: List.replicate 31 0

/-- The 16-entry authentication tag of the ideal AEAD: an injective
fingerprint of (key, nonce, plaintext).  Real Poly1305 provides this only
computationally. -/
def macTag (key nonce plain : List Nat) : List Nat :=
  encodeL [encodeL key, encodeL nonce, encodeL plain] :: List.replicate 15 0

/-- Modelled from the ChaCha20Poly1305 collaborator (`cipher.encrypt`):
the body is kept verbatim (confidentiality is not the subject of any claim)
and the 16-entry tag is appended, so ciphertext length = plaintext + 16 as
on disk. -/
def aeadEncrypt (key nonce plain : List Nat) : List Nat :=
  plain ++ macTag key nonce plain

/-- Modelled from the ChaCha20Poly1305 collaborator (`cipher.decrypt`):
verifies the tag and returns the body, or fails. -/
def aeadDecrypt (key nonce ct : List Nat) : Option (List Nat) :=
  if 16 ≤ ct.length ∧ ct.drop (ct.length - 16) = macTag key nonce (ct.take (ct.length - 16))
  then some (ct.take (ct.length - 16))
  else none

/-! ### Constants and the record data model (src/main.rs lines 12-17, 24-28) -/

/-- `MAGIC_ENCRYPTED = b"RVP1"` -/
def MAGIC_ENCRYPTED : List Nat := [82, 86, 80, 49]

/-- `MAGIC_PLAIN = b"RVP0"` -/
def MAGIC_PLAIN : List Nat := [82, 86, 80, 48]

def SALT_LEN : Nat := 16

def NONCE_LEN : Nat := 12

/-- `struct Entry { name, user, password }` -/
structure Entry where
  name : String
  user : String
  password : String
deriving DecidableEq

/-! ### Record serialization (modelling the serde_json collaborator)

Modelled from the serde_json collaborator used by `load_entries` and
`save_entries`: an injective byte encoding of the record list with a
partial inverse; parsing fails (returns `none`) on input that is not the
encoding of a record list, as serde_json fails on non-JSON input.  The
`String::from_utf8_lossy` step of the plain branch is the identity on
serializer output (which is valid UTF-8) and is folded into the model. -/

/-- One string field: length-prefixed character codes. -/
def encodeString (s : String) : List Nat := s.length :: s.data.map Char.toNat

def serializeEntry (e : Entry) : List Nat :=
  encodeString e.name ++ encodeString e.user ++ encodeString e.password

/-- `serde_json::to_vec(entries)` (modelled). -/
def serializeEntries (es : List Entry) : List Nat :=
  es.length :: es.flatMap serializeEntry

def decodeString : List Nat → Option (String × List Nat)
  | [] => none
  | n :: rest =>
    if n ≤ rest.length
    then some (String.mk ((rest.take n).map Char.ofNat), rest.drop n)
    else none

def decodeEntry (l : List Nat) : Option (Entry × List Nat) :=
  match decodeString l with
  | none => none
  | some (name, l1) =>
    match decodeString l1 with
    | none => none
    | some (user, l2) =>
      match decodeString l2 with
      | none => none
      | some (password, l3) => some (⟨name, user, password⟩, l3)

def decodeEntriesAux : Nat → List Nat → Option (List Entry × List Nat)
  | 0, l => some ([], l)
  | n + 1, l =>
    match decodeEntry l with
    | none => none
    | some (e, l1) =>
      match decodeEntriesAux n l1 with
      | none => none
      | some (es, l2) => some (e :: es, l2)

/-- `serde_json::from_slice / from_str` on a record list (modelled): `none`
when the bytes do not parse (including trailing garbage, which serde_json
also rejects). -/
def deserializeEntries : List Nat → Option (List Entry)
  | [] => none
  | n :: rest =>
    match decodeEntriesAux n rest with
    | some (es, []) => some es
    | _ => none

/-! ### Error model (the boxed string errors of src/main.rs, §7 of spec) -/

/-- The distinct failure kinds produced by the store core.  In the code all
are boxed string errors; the constructors carry the message where one is
fixed in the source. -/
inductive StoreError where
  /-- `"file too short"` or `"not encrypted or wrong format"` from `decrypt` -/
  | format (msg : String)
  /-- `"encrypted store: passphrase required (use same key you set with init)"` -/
  | missingKey
  /-- `"wrong passphrase or corrupted data"` from `decrypt` -/
  | auth
  /-- a filesystem error other than not-found -/
  | ioFailure
  /-- a serde_json parse error propagated by `?` in the encrypted branch -/
  | serde
  /-- `"could not determine data directory"` from `main` -/
  | noDataDir
deriving DecidableEq

/-! ### The container codec (src/main.rs lines 44-82) -/

/-- `encrypt(plain, passphrase)` (src/main.rs lines 44-63), with the random
salt and nonce passed explicitly: builds
`MAGIC_ENCRYPTED ∥ salt ∥ nonce ∥ ciphertext+tag`. -/
def encrypt (plain : List Nat) (passphrase : String) (salt nonce : List Nat) : List Nat :=
  MAGIC_ENCRYPTED ++ salt ++ nonce ++ aeadEncrypt (derive_key passphrase salt) nonce plain

/-- `decrypt(data, passphrase)` (src/main.rs lines 65-82). -/
def decrypt (data : List Nat) (passphrase : String) : Except StoreError (List Nat) :=
  if data.length < 4 + SALT_LEN + NONCE_LEN + 16 then
    .error (.format "file too short")
  else if data.take 4 ≠ MAGIC_ENCRYPTED then
    .error (.format "not encrypted or wrong format")
  else
    let salt := (data.drop 4).take SALT_LEN
    let nonce := (data.drop (4 + SALT_LEN)).take NONCE_LEN
    let ct := data.drop (4 + SALT_LEN + NONCE_LEN)
    match aeadDecrypt (derive_key passphrase salt) nonce ct with
    | some plain => .ok plain
    | none => .error .auth

/-! ### Loading and saving the store (src/main.rs lines 88-125) -/

/-- The outcome of `fs::read(path)` as seen by `load_entries`. -/
inductive ReadResult where
  /-- `ErrorKind::NotFound` -/
  | notFound
  /-- any other filesystem error -/
  | otherIoError
  /-- the file content -/
  | ok (data : List Nat)
deriving DecidableEq

/-- `load_entries(path, passphrase)` (src/main.rs lines 88-109), with the
filesystem read result passed explicitly. -/
def load_entries (r : ReadResult) (passphrase : Option String) :
    Except StoreError (List Entry) :=
  match r with
  | .notFound => .ok []
  | .otherIoError => .error .ioFailure
  | .ok data =>
    if data.length < 4 then .ok []
    else if data.take 4 = MAGIC_PLAIN then
      .ok ((deserializeEntries (data.drop 4)).getD [])
    else if data.take 4 = MAGIC_ENCRYPTED then
      match passphrase with
      | none => .error .missingKey
      | some pass =>
        match decrypt data pass with
        | .error e => .error e
        | .ok plain =>
          match deserializeEntries plain with
          | none => .error .serde
          | some es => .ok es
    else .ok []

/-- `save_entries(path, entries, passphrase)` (src/main.rs lines 111-125),
with the random salt and nonce passed explicitly; returns the bytes written
to the store file (directory creation and the write itself are filesystem
collaborators). -/
def save_entries (entries : List Entry) (passphrase : Option String)
    (salt nonce : List Nat) : List Nat :=
  match passphrase with
  | some pass => encrypt (serializeEntries entries) pass salt nonce
  | none => MAGIC_PLAIN ++ serializeEntries entries

/-! ### Round-trip of the record serializer -/

theorem string_mk_data (s : String) : String.mk s.data = s := by cases s; rfl

theorem decodeString_encode (s : String) (rest : List Nat) :
    decodeString (encodeString s ++ rest) = some (s, rest) := by
  have hlen : (s.data.map Char.toNat).length = s.length := by
    rw [List.length_map]; rfl
  have hle : s.length ≤ (s.data.map Char.toNat ++ rest).length := by
    rw [List.length_append, hlen]; omega
  have htake : (s.data.map Char.toNat ++ rest).take s.length = s.data.map Char.toNat :=
    List.take_left' hlen
  have hdrop : (s.data.map Char.toNat ++ rest).drop s.length = rest :=
    List.drop_left' hlen
  have hmap : ((s.data.map Char.toNat).map Char.ofNat) = s.data := by
    rw [List.map_map, show (Char.ofNat ∘ Char.toNat) = id from funext Char.ofNat_toNat,
      List.map_id]
  show decodeString (s.length :: (s.data.map Char.toNat ++ rest)) = some (s, rest)
  simp only [decodeString, if_pos hle, htake, hdrop, hmap, string_mk_data]

set_option maxRecDepth 4000 in
theorem decodeEntry_encode (e : Entry) (rest : List Nat) :
    decodeEntry (serializeEntry e ++ rest) = some (e, rest) := by
  have h : serializeEntry e ++ rest
      = encodeString e.name ++ (encodeString e.user ++ (encodeString e.password ++ rest)) := by
    simp [serializeEntry, List.append_assoc]
  rw [h]
  simp only [decodeEntry, decodeString_encode]

theorem decodeEntriesAux_encode : ∀ (es : List Entry) (rest : List Nat),
    decodeEntriesAux es.length (es.flatMap serializeEntry ++ rest) = some (es, rest) := by
  intro es
  induction es with
  | nil => intro rest; simp [decodeEntriesAux]
  | cons e es ih =>
    intro rest
    have h : (e :: es).flatMap serializeEntry ++ rest
        = serializeEntry e ++ (es.flatMap serializeEntry ++ rest) := by
      simp [List.flatMap_cons, List.append_assoc]
    rw [show (e :: es).length = es.length + 1 from rfl, h]
    simp only [decodeEntriesAux, decodeEntry_encode, ih]

theorem deserialize_serialize (es : List Entry) :
    deserializeEntries (serializeEntries es) = some es := by
  have h := decodeEntriesAux_encode es []
  rw [List.append_nil] at h
  show deserializeEntries (es.length :: es.flatMap serializeEntry) = some es
  simp only [deserializeEntries, h]

/-! ### Correctness of the ideal AEAD and the container codec -/

theorem macTag_length (k n p : List Nat) : (macTag k n p).length = 16 := by
  simp [macTag]

theorem macTag_inj {k n p k' n' p' : List Nat}
    (h : macTag k n p = macTag k' n' p') : k = k' ∧ n = n' ∧ p = p' := by
  have h1 : encodeL [encodeL k, encodeL n, encodeL p]
      = encodeL [encodeL k', encodeL n', encodeL p'] := by
    have := congrArg (fun l => l.headI) h
    simpa [macTag] using this
  have h2 := encodeL_inj _ _ h1
  simp only [List.cons.injEq, and_true] at h2
  exact ⟨encodeL_inj _ _ h2.1, encodeL_inj _ _ h2.2.1, encodeL_inj _ _ h2.2.2⟩

theorem derive_key_inj {p p' : String} {s s' : List Nat}
    (h : derive_key p s = derive_key p' s') : p = p' ∧ s = s' := by
  have h1 : encodeL [encodeStrN p, encodeL s] = encodeL [encodeStrN p', encodeL s'] := by
    have := congrArg (fun l => l.headI) h
    simpa [derive_key] using this
  have h2 := encodeL_inj _ _ h1
  simp only [List.cons.injEq, and_true] at h2
  exact ⟨encodeStrN_inj h2.1, encodeL_inj _ _ h2.2⟩

theorem aead_correct (key nonce plain : List Nat) :
    aeadDecrypt key nonce (aeadEncrypt key nonce plain) = some plain := by
  have hlen : (aeadEncrypt key nonce plain).length = plain.length + 16 := by
    simp [aeadEncrypt, macTag_length]
  have hsub : (aeadEncrypt key nonce plain).length - 16 = plain.length := by omega
  have htake : (aeadEncrypt key nonce plain).take plain.length = plain :=
    List.take_left' rfl
  have hdrop : (aeadEncrypt key nonce plain).drop plain.length = macTag key nonce plain :=
    List.drop_left' rfl
  unfold aeadDecrypt
  rw [hsub, htake, hdrop, if_pos ⟨by omega, rfl⟩]

theorem encrypt_assoc (plain : List Nat) (pass : String) (salt nonce : List Nat) :
    encrypt plain pass salt nonce
      = MAGIC_ENCRYPTED ++ (salt ++ (nonce ++ aeadEncrypt (derive_key pass salt) nonce plain)) := by
  simp [encrypt, List.append_assoc]

theorem encrypt_length (plain : List Nat) (pass : String) (salt nonce : List Nat)
    (hs : salt.length = SALT_LEN) (hn : nonce.length = NONCE_LEN) :
    (encrypt plain pass salt nonce).length = plain.length + 48 := by
  simp [encrypt, aeadEncrypt, macTag, MAGIC_ENCRYPTED, hs, hn, SALT_LEN, NONCE_LEN]
  omega

theorem encrypt_take4 (plain : List Nat) (pass : String) (salt nonce : List Nat) :
    (encrypt plain pass salt nonce).take 4 = MAGIC_ENCRYPTED := by
  rw [encrypt_assoc]
  exact List.take_left' rfl

theorem encrypt_salt (plain : List Nat) (pass : String) (salt nonce : List Nat)
    (hs : salt.length = SALT_LEN) :
    ((encrypt plain pass salt nonce).drop 4).take SALT_LEN = salt := by
  rw [encrypt_assoc, List.drop_left' (show MAGIC_ENCRYPTED.length = 4 from rfl)]
  exact List.take_left' hs

theorem encrypt_nonce (plain : List Nat) (pass : String) (salt nonce : List Nat)
    (hs : salt.length = SALT_LEN) (hn : nonce.length = NONCE_LEN) :
    ((encrypt plain pass salt nonce).drop (4 + SALT_LEN)).take NONCE_LEN = nonce := by
  have h : encrypt plain pass salt nonce
      = (MAGIC_ENCRYPTED ++ salt)
        ++ (nonce ++ aeadEncrypt (derive_key pass salt) nonce plain) := by
    simp [encrypt, List.append_assoc]
  rw [h, List.drop_left' (by simp [MAGIC_ENCRYPTED, hs, SALT_LEN])]
  exact List.take_left' hn

theorem encrypt_ct (plain : List Nat) (pass : String) (salt nonce : List Nat)
    (hs : salt.length = SALT_LEN) (hn : nonce.length = NONCE_LEN) :
    (encrypt plain pass salt nonce).drop (4 + SALT_LEN + NONCE_LEN)
      = aeadEncrypt (derive_key pass salt) nonce plain := by
  have h : encrypt plain pass salt nonce
      = ((MAGIC_ENCRYPTED ++ salt) ++ nonce)
        ++ aeadEncrypt (derive_key pass salt) nonce plain := by
    simp [encrypt, List.append_assoc]
  rw [h, List.drop_left' (by simp [MAGIC_ENCRYPTED, hs, hn, SALT_LEN, NONCE_LEN])]

theorem decrypt_encrypt (plain : List Nat) (pass : String) (salt nonce : List Nat)
    (hs : salt.length = SALT_LEN) (hn : nonce.length = NONCE_LEN) :
    decrypt (encrypt plain pass salt nonce) pass = .ok plain := by
  have hlen := encrypt_length plain pass salt nonce hs hn
  have h4 := encrypt_take4 plain pass salt nonce
  have hsalt := encrypt_salt plain pass salt nonce hs
  have hnonce := encrypt_nonce plain pass salt nonce hs hn
  have hct := encrypt_ct plain pass salt nonce hs hn
  simp only [decrypt, SALT_LEN, NONCE_LEN] at *
  rw [if_neg (by omega), if_neg (by simp [h4])]
  simp only [hsalt, hnonce, hct, aead_correct]

instance {ε α : Type} [DecidableEq ε] [DecidableEq α] : DecidableEq (Except ε α) :=
  fun a b =>
    match a, b with
    | .ok x, .ok y =>
      if h : x = y then isTrue (by rw [h])
      else isFalse (fun hc => h (by injection hc))
    | .error x, .error y =>
      if h : x = y then isTrue (by rw [h])
      else isFalse (fun hc => h (by injection hc))
    | .ok _, .error _ => isFalse (fun hc => by injection hc)
    | .error _, .ok _ => isFalse (fun hc => by injection hc)

/-! ### Behaviour of `load_entries` on the two well-formed container shapes -/

theorem load_plain_roundtrip (es : List Entry) (p : Option String) :
    load_entries (.ok (MAGIC_PLAIN ++ serializeEntries es)) p = .ok es := by
  have h4 : (MAGIC_PLAIN ++ serializeEntries es).take 4 = MAGIC_PLAIN :=
    List.take_left' rfl
  have hd : (MAGIC_PLAIN ++ serializeEntries es).drop 4 = serializeEntries es :=
    List.drop_left' rfl
  have hlen : ¬ (MAGIC_PLAIN ++ serializeEntries es).length < 4 := by
    rw [List.length_append]
    show ¬ 4 + _ < 4
    omega
  simp only [load_entries]
  rw [if_neg hlen, if_pos h4, hd, deserialize_serialize]
  rfl

theorem load_encrypted_roundtrip (es : List Entry) (pass : String)
    (salt nonce : List Nat) (hs : salt.length = SALT_LEN) (hn : nonce.length = NONCE_LEN) :
    load_entries (.ok (encrypt (serializeEntries es) pass salt nonce)) (some pass)
      = .ok es := by
  have hlen := encrypt_length (serializeEntries es) pass salt nonce hs hn
  have h4 := encrypt_take4 (serializeEntries es) pass salt nonce
  have hne : ¬ (encrypt (serializeEntries es) pass salt nonce).take 4 = MAGIC_PLAIN := by
    rw [h4]; decide
  simp only [load_entries]
  rw [if_neg (by omega), if_neg hne, if_pos h4]
  show (match decrypt (encrypt (serializeEntries es) pass salt nonce) pass with
    | .error e => Except.error e
    | .ok plain =>
      match deserializeEntries plain with
      | none => Except.error StoreError.serde
      | some es => Except.ok es) = Except.ok es
  rw [decrypt_encrypt (serializeEntries es) pass salt nonce hs hn]
  show (match deserializeEntries (serializeEntries es) with
    | none => Except.error StoreError.serde
    | some es => Except.ok es) = Except.ok es
  rw [deserialize_serialize]

/-! ### Claim C1 -/

/-- Claim C1: for every sequence of records and every passphrase (including
none), saving to a container and loading back with the same passphrase
returns exactly the original records. -/
theorem C1_save_load_roundtrip (r : List Entry) (p : Option String)
    (salt nonce : List Nat) (hs : salt.length = SALT_LEN) (hn : nonce.length = NONCE_LEN) :
    load_entries (.ok (save_entries r p salt nonce)) p = .ok r := by
  cases p with
  | none => exact load_plain_roundtrip r none
  | some pass => exact load_encrypted_roundtrip r pass salt nonce hs hn

theorem C1_witness :
    (List.replicate 16 0).length = SALT_LEN ∧ (List.replicate 12 0).length = NONCE_LEN ∧
    load_entries
      (.ok (save_entries [⟨"git", "bob", "s3cr3t"⟩] (some "hunter2")
        (List.replicate 16 0) (List.replicate 12 0)))
      (some "hunter2") = .ok [⟨"git", "bob", "s3cr3t"⟩] :=
  ⟨rfl, rfl,
    C1_save_load_roundtrip [⟨"git", "bob", "s3cr3t"⟩] (some "hunter2")
      (List.replicate 16 0) (List.replicate 12 0) rfl rfl⟩

/-! ### Claim C2 -/

/-- Claim C2 counterexample: a 10-byte container carrying the ENCRYPTED tag,
decoded with no passphrase, fails with the missing-key error, not with
FormatError ("too short"); so short containers do not fail with FormatError
regardless of passphrase. -/
theorem C2_counterexample :
    load_entries (.ok (MAGIC_ENCRYPTED ++ List.replicate 6 0)) none
        = .error .missingKey ∧
      load_entries (.ok (MAGIC_ENCRYPTED ++ List.replicate 6 0)) none
        ≠ .error (.format "file too short") := by
  constructor
  · rfl
  · decide

/-- Claim C2 (amended): every container shorter than 48 bytes whose first 4
bytes are the ENCRYPTED tag, decoded with a supplied passphrase, fails with
FormatError ("file too short"). -/
theorem C2_short_encrypted_format_error (data : List Nat) (pass : String)
    (hlen : data.length < 48) (htag : data.take 4 = MAGIC_ENCRYPTED) :
    load_entries (.ok data) (some pass) = .error (.format "file too short") := by
  have hge : ¬ data.length < 4 := by
    have := congrArg List.length htag
    rw [List.length_take] at this
    simp [MAGIC_ENCRYPTED] at this
    omega
  have hne : ¬ data.take 4 = MAGIC_PLAIN := by
    rw [htag]; decide
  have hdec : decrypt data pass = .error (.format "file too short") := by
    unfold decrypt
    rw [if_pos (by simp only [SALT_LEN, NONCE_LEN]; omega)]
  simp only [load_entries]
  rw [if_neg hge, if_neg hne, if_pos htag]
  show (match decrypt data pass with
    | .error e => Except.error e
    | .ok plain =>
      match deserializeEntries plain with
      | none => Except.error StoreError.serde
      | some es => Except.ok es) = Except.error (StoreError.format "file too short")
  rw [hdec]

theorem C2_witness :
    (MAGIC_ENCRYPTED ++ List.replicate 6 0).length < 48 ∧
    (MAGIC_ENCRYPTED ++ List.replicate 6 0).take 4 = MAGIC_ENCRYPTED ∧
    load_entries (.ok (MAGIC_ENCRYPTED ++ List.replicate 6 0)) (some "x")
      = .error (.format "file too short") :=
  ⟨by decide, by decide,
    C2_short_encrypted_format_error (MAGIC_ENCRYPTED ++ List.replicate 6 0) "x"
      (by decide) (by decide)⟩

/-! ### Claim C3 -/

/-- Claim C3: a container whose first 4 bytes are neither the PLAIN nor the
ENCRYPTED tag, or that is shorter than 4 bytes, loads as the empty record
sequence, without error, for any passphrase supplied or absent. -/
theorem C3_unknown_tag_empty (data : List Nat) (p : Option String)
    (h : data.length < 4 ∨
      (data.take 4 ≠ MAGIC_PLAIN ∧ data.take 4 ≠ MAGIC_ENCRYPTED)) :
    load_entries (.ok data) p = .ok [] := by
  by_cases hl : data.length < 4
  · simp only [load_entries]
    rw [if_pos hl]
  · rcases h with h | ⟨h1, h2⟩
    · exact absurd h hl
    · simp only [load_entries]
      rw [if_neg hl, if_neg h1, if_neg h2]

theorem C3_witness :
    (([1, 2, 3, 4, 5] : List Nat).length < 4 ∨
      (([1, 2, 3, 4, 5] : List Nat).take 4 ≠ MAGIC_PLAIN ∧
        ([1, 2, 3, 4, 5] : List Nat).take 4 ≠ MAGIC_ENCRYPTED)) ∧
    load_entries (.ok [1, 2, 3, 4, 5]) none = .ok [] :=
  ⟨Or.inr ⟨by decide, by decide⟩,
    C3_unknown_tag_empty [1, 2, 3, 4, 5] none (Or.inr ⟨by decide, by decide⟩)⟩

/-! ### Claim C4 -/

theorem decrypt_components (data : List Nat) (pass : String)
    (hlen : ¬ data.length < 4 + SALT_LEN + NONCE_LEN + 16)
    (htag : data.take 4 = MAGIC_ENCRYPTED) :
    decrypt data pass =
      match aeadDecrypt (derive_key pass ((data.drop 4).take SALT_LEN))
          ((data.drop (4 + SALT_LEN)).take NONCE_LEN)
          (data.drop (4 + SALT_LEN + NONCE_LEN)) with
      | some plain => .ok plain
      | none => .error .auth := by
  unfold decrypt
  rw [if_neg hlen, if_neg (by simp [htag])]

/-- Modifying one position of a well-formed ideal-AEAD ciphertext (body or
tag) makes authentication fail. -/
theorem aeadDecrypt_flip (key nonce plain w v : List Nat) (a b : Nat)
    (hws : w ++ a :: v = aeadEncrypt key nonce plain) (hab : b ≠ a) :
    aeadDecrypt key nonce (w ++ b :: v) = none := by
  have hL := congrArg List.length hws
  simp only [List.length_append, List.length_cons, aeadEncrypt, macTag_length] at hL
  have hsub : (w ++ b :: v).length - 16 = plain.length := by
    simp only [List.length_append, List.length_cons]
    omega
  have htakeA : (w ++ a :: v).take plain.length = plain := by
    rw [hws]; exact List.take_left' rfl
  have hdropA : (w ++ a :: v).drop plain.length = macTag key nonce plain := by
    rw [hws]; exact List.drop_left' rfl
  by_cases hw : plain.length ≤ w.length
  · -- the modified position lies in the tag region: body unchanged, tag changed
    have htakeB : (w ++ b :: v).take plain.length = plain := by
      rw [List.take_append_of_le_length hw] at htakeA
      rw [List.take_append_of_le_length hw]
      exact htakeA
    have hdropAB : w.drop plain.length ++ a :: v = macTag key nonce plain := by
      rw [← hdropA, List.drop_append_of_le_length hw]
    have hdropB : (w ++ b :: v).drop plain.length = w.drop plain.length ++ b :: v :=
      List.drop_append_of_le_length hw
    have hc : ¬ (16 ≤ (w ++ b :: v).length ∧
        w.drop plain.length ++ b :: v = macTag key nonce plain) := by
      rintro ⟨-, heq⟩
      rw [← hdropAB] at heq
      have hcons := List.append_cancel_left heq
      injection hcons with h1 _
      exact hab h1
    unfold aeadDecrypt
    rw [hsub, htakeB, hdropB, if_neg hc]
  · -- the modified position lies in the body: body changed, tag unchanged
    push_neg at hw
    obtain ⟨k, hk⟩ : ∃ k, plain.length = w.length + (k + 1) :=
      ⟨plain.length - w.length - 1, by omega⟩
    have htakeB : (w ++ b :: v).take plain.length = w ++ b :: v.take k := by
      rw [hk, List.take_append]
      rfl
    have htakeA2 : w ++ a :: v.take k = plain := by
      rw [hk, List.take_append] at htakeA
      exact htakeA
    have hdropB : (w ++ b :: v).drop plain.length = v.drop k := by
      rw [hk, List.drop_append]
      rfl
    have hdropA2 : v.drop k = macTag key nonce plain := by
      rw [hk, List.drop_append] at hdropA
      exact hdropA
    have hc : ¬ (16 ≤ (w ++ b :: v).length ∧
        v.drop k = macTag key nonce (w ++ b :: v.take k)) := by
      rintro ⟨-, heq⟩
      rw [hdropA2] at heq
      obtain ⟨-, -, hplain⟩ := macTag_inj heq
      rw [← htakeA2] at hplain
      have hcons := List.append_cancel_left hplain
      injection hcons with h1 _
      exact hab h1.symm
    unfold aeadDecrypt
    rw [hsub, htakeB, hdropB, if_neg hc]

/-- Claim C4: decoding an encrypted container with any passphrase other than
the one used to encode it fails with AuthError, and so does decoding after
modifying any single position of the ciphertext-plus-tag region (bytes from
offset 32 on); no plaintext, altered or partial, is ever returned. -/
theorem C4_wrong_key_and_tamper_rejection (plain : List Nat) (pass : String)
    (salt nonce : List Nat) (hs : salt.length = SALT_LEN) (hn : nonce.length = NONCE_LEN) :
    (∀ pass', pass' ≠ pass →
      decrypt (encrypt plain pass salt nonce) pass' = .error .auth) ∧
    (∀ u v : List Nat, ∀ a b : Nat,
      encrypt plain pass salt nonce = u ++ a :: v → 32 ≤ u.length → b ≠ a →
      decrypt (u ++ b :: v) pass = .error .auth) := by
  have hlen := encrypt_length plain pass salt nonce hs hn
  have h4 := encrypt_take4 plain pass salt nonce
  have hsalt := encrypt_salt plain pass salt nonce hs
  have hnonce := encrypt_nonce plain pass salt nonce hs hn
  have hct := encrypt_ct plain pass salt nonce hs hn
  constructor
  · intro pass' hne
    have hB : (aeadEncrypt (derive_key pass salt) nonce plain).length = plain.length + 16 := by
      simp [aeadEncrypt, macTag_length]
    have hsub : (aeadEncrypt (derive_key pass salt) nonce plain).length - 16 = plain.length := by
      omega
    have htake : (aeadEncrypt (derive_key pass salt) nonce plain).take plain.length = plain :=
      List.take_left' rfl
    have hdrop : (aeadEncrypt (derive_key pass salt) nonce plain).drop plain.length
        = macTag (derive_key pass salt) nonce plain :=
      List.drop_left' rfl
    have hc : ¬ (16 ≤ (aeadEncrypt (derive_key pass salt) nonce plain).length ∧
        macTag (derive_key pass salt) nonce plain
          = macTag (derive_key pass' salt) nonce plain) := by
      rintro ⟨-, heq⟩
      obtain ⟨hkey, -, -⟩ := macTag_inj heq
      obtain ⟨hp, -⟩ := derive_key_inj hkey
      exact hne hp.symm
    have hfail : aeadDecrypt (derive_key pass' salt) nonce
        (aeadEncrypt (derive_key pass salt) nonce plain) = none := by
      unfold aeadDecrypt
      rw [hsub, htake, hdrop, if_neg hc]
    rw [decrypt_components _ _ (by simp only [SALT_LEN, NONCE_LEN]; omega) h4,
      hsalt, hnonce, hct, hfail]
  · intro u v a b hsplit h32 hab
    have hlenuv : u.length + (v.length + 1) = plain.length + 48 := by
      have := congrArg List.length hsplit
      simp only [List.length_append, List.length_cons] at this
      omega
    have htagA : (u ++ a :: v).take 4 = u.take 4 :=
      List.take_append_of_le_length (by omega)
    have htagB : (u ++ b :: v).take 4 = u.take 4 :=
      List.take_append_of_le_length (by omega)
    have htag' : (u ++ b :: v).take 4 = MAGIC_ENCRYPTED := by
      rw [htagB, ← htagA, ← hsplit]; exact h4
    have hsA : ((u ++ a :: v).drop 4).take SALT_LEN = (u.drop 4).take SALT_LEN := by
      rw [List.drop_append_of_le_length (by omega)]
      exact List.take_append_of_le_length
        (by rw [List.length_drop]; simp only [SALT_LEN]; omega)
    have hsB : ((u ++ b :: v).drop 4).take SALT_LEN = (u.drop 4).take SALT_LEN := by
      rw [List.drop_append_of_le_length (by omega)]
      exact List.take_append_of_le_length
        (by rw [List.length_drop]; simp only [SALT_LEN]; omega)
    have hsalt' : ((u ++ b :: v).drop 4).take SALT_LEN = salt := by
      rw [hsB, ← hsA, ← hsplit]; exact hsalt
    have hnA : ((u ++ a :: v).drop (4 + SALT_LEN)).take NONCE_LEN
        = (u.drop (4 + SALT_LEN)).take NONCE_LEN := by
      rw [List.drop_append_of_le_length (by simp only [SALT_LEN]; omega)]
      exact List.take_append_of_le_length
        (by rw [List.length_drop]; simp only [SALT_LEN, NONCE_LEN]; omega)
    have hnB : ((u ++ b :: v).drop (4 + SALT_LEN)).take NONCE_LEN
        = (u.drop (4 + SALT_LEN)).take NONCE_LEN := by
      rw [List.drop_append_of_le_length (by simp only [SALT_LEN]; omega)]
      exact List.take_append_of_le_length
        (by rw [List.length_drop]; simp only [SALT_LEN, NONCE_LEN]; omega)
    have hnonce' : ((u ++ b :: v).drop (4 + SALT_LEN)).take NONCE_LEN = nonce := by
      rw [hnB, ← hnA, ← hsplit]; exact hnonce
    have hcA : (u ++ a :: v).drop (4 + SALT_LEN + NONCE_LEN)
        = u.drop (4 + SALT_LEN + NONCE_LEN) ++ a :: v :=
      List.drop_append_of_le_length (by simp only [SALT_LEN, NONCE_LEN]; omega)
    have hcB : (u ++ b :: v).drop (4 + SALT_LEN + NONCE_LEN)
        = u.drop (4 + SALT_LEN + NONCE_LEN) ++ b :: v :=
      List.drop_append_of_le_length (by simp only [SALT_LEN, NONCE_LEN]; omega)
    have hws : u.drop (4 + SALT_LEN + NONCE_LEN) ++ a :: v
        = aeadEncrypt (derive_key pass salt) nonce plain := by
      rw [← hcA, ← hsplit]; exact hct
    have hflip := aeadDecrypt_flip (derive_key pass salt) nonce plain
      (u.drop (4 + SALT_LEN + NONCE_LEN)) v a b hws hab
    have hlen' : ¬ (u ++ b :: v).length < 4 + SALT_LEN + NONCE_LEN + 16 := by
      simp only [List.length_append, List.length_cons, SALT_LEN, NONCE_LEN]
      omega
    rw [decrypt_components _ _ hlen' htag', hsalt', hnonce', hcB, hflip]

set_option maxRecDepth 400000 in
theorem C4_witness :
    decrypt (encrypt [1, 2] "correct" (List.replicate 16 0) (List.replicate 12 0)) "wrong"
        = .error .auth ∧
      decrypt
        ((encrypt [1, 2] "correct" (List.replicate 16 0) (List.replicate 12 0)).take 32
          ++ 9 :: (encrypt [1, 2] "correct" (List.replicate 16 0) (List.replicate 12 0)).drop 33)
        "correct" = .error .auth := by
  have h := C4_wrong_key_and_tamper_rejection [1, 2] "correct"
    (List.replicate 16 0) (List.replicate 12 0) rfl rfl
  exact ⟨h.1 "wrong" (by decide),
    h.2 ((encrypt [1, 2] "correct" (List.replicate 16 0) (List.replicate 12 0)).take 32)
      ((encrypt [1, 2] "correct" (List.replicate 16 0) (List.replicate 12 0)).drop 33)
      1 9 (by decide) (by decide) (by decide)⟩

/-! ### Claim C5 -/

/-- Claim C5: a container whose first 4 bytes are the ENCRYPTED tag, decoded
with no passphrase supplied, fails with the missing-key error (it returns
neither records nor an empty sequence). -/
theorem C5_encrypted_needs_passphrase (data : List Nat)
    (htag : data.take 4 = MAGIC_ENCRYPTED) :
    load_entries (.ok data) none = .error .missingKey := by
  have hge : ¬ data.length < 4 := by
    have := congrArg List.length htag
    rw [List.length_take] at this
    simp [MAGIC_ENCRYPTED] at this
    omega
  have hne : ¬ data.take 4 = MAGIC_PLAIN := by
    rw [htag]; decide
  simp only [load_entries]
  rw [if_neg hge, if_neg hne, if_pos htag]

theorem C5_witness :
    (MAGIC_ENCRYPTED ++ List.replicate 44 0).take 4 = MAGIC_ENCRYPTED ∧
    load_entries (.ok (MAGIC_ENCRYPTED ++ List.replicate 44 0)) none
      = .error .missingKey :=
  ⟨by decide,
    C5_encrypted_needs_passphrase (MAGIC_ENCRYPTED ++ List.replicate 44 0) (by decide)⟩

/-! ### Claim C6 -/

/-- Claim C6: loading a nonexistent file returns the empty record sequence
for any passphrase; any filesystem failure other than not-found is surfaced
as an error. -/
theorem C6_missing_file_empty (p : Option String) :
    load_entries .notFound p = .ok [] ∧
      load_entries .otherIoError p = .error .ioFailure :=
  ⟨rfl, rfl⟩

/-! ### Claim C7 -/

/-- Claim C7: decoding a container carrying the PLAIN tag yields the same
result whatever passphrase argument is supplied (or none): the passphrase
has no influence on the plain branch. -/
theorem C7_plain_passphrase_independent (data : List Nat) (p1 p2 : Option String)
    (htag : data.take 4 = MAGIC_PLAIN) :
    load_entries (.ok data) p1 = load_entries (.ok data) p2 := by
  by_cases hl : data.length < 4
  · simp only [load_entries, hl, if_true]
  · simp only [load_entries, hl, if_false, htag, if_true]

theorem C7_witness :
    (MAGIC_PLAIN ++ [91, 93]).take 4 = MAGIC_PLAIN ∧
    load_entries (.ok (MAGIC_PLAIN ++ [91, 93])) (some "anything")
      = load_entries (.ok (MAGIC_PLAIN ++ [91, 93])) none :=
  ⟨by decide,
    C7_plain_passphrase_independent (MAGIC_PLAIN ++ [91, 93]) (some "anything") none
      (by decide)⟩

/-! ### Claim C8 -/

set_option maxRecDepth 400000 in
/-- Claim C8 counterexample: an encrypted container whose successfully
decrypted payload does not parse as a record sequence makes loading fail
(the parse error is propagated), instead of returning the empty list. -/
theorem C8_counterexample :
    load_entries
      (.ok (encrypt [999] "p" (List.replicate 16 0) (List.replicate 12 0)))
      (some "p") = .error .serde := by
  rfl

/-- Claim C8 (amended): for a PLAIN container whose payload does not parse
as a record sequence, loading fails closed to the empty record list (for an
encrypted container a non-parsing decrypted payload is instead propagated
as an error, as the counterexample shows). -/
theorem C8_plain_fails_closed (data : List Nat) (p : Option String)
    (htag : data.take 4 = MAGIC_PLAIN)
    (hbad : deserializeEntries (data.drop 4) = none) :
    load_entries (.ok data) p = .ok [] := by
  by_cases hl : data.length < 4
  · simp only [load_entries]
    rw [if_pos hl]
  · simp only [load_entries]
    rw [if_neg hl, if_pos htag, hbad]
    rfl

theorem C8_witness :
    (MAGIC_PLAIN ++ [999]).take 4 = MAGIC_PLAIN ∧
    deserializeEntries ((MAGIC_PLAIN ++ [999]).drop 4) = none ∧
    load_entries (.ok (MAGIC_PLAIN ++ [999])) none = .ok [] :=
  ⟨by decide, by decide,
    C8_plain_fails_closed (MAGIC_PLAIN ++ [999]) none (by decide) (by decide)⟩

/-! ### The command dispatch of `main` (src/main.rs lines 127-218)

`main` is modelled as a function of its observable inputs: the argv list,
the interactive passphrase/secret answers (`stdin i` is the answer to the
i-th `read_passphrase` prompt of the invocation, modelled as always
succeeding), the store file read result, the randomness for a save, and
whether the data directory could be determined.  The result is `Except`:
`.ok` models `main` returning `Ok(())` (process exit status 0) and carries
the printed lines (prompts omitted) and the bytes written to the store file
if a save happened; `.error` models `main` returning `Err` via `?`
(process exit status 1).  The filesystem write itself is modelled as
succeeding. -/

/-- The printed lines and the store write of a successful invocation. -/
structure MainOut where
  printed : List String
  written : Option (List Nat)
deriving DecidableEq

/-- The `if s.is_empty() { None } else { Some(s) }` idiom used by every
command to turn the prompted master key into an optional passphrase. -/
def keyOpt (s : String) : Option String := if s = "" then none else some s

/-- `args.get(1).map(|s| s.as_str()).unwrap_or("help")` -/
def cmdOf (args : List String) : String := (args.get? 1).getD "help"

/-- The help text printed by the `"help" | _` arm. -/
def helpLines : List String :=
  ["RevaultPass - password manager (user:password)",
   "  init              create store, set master key (recommended)",
   "  add <name> <user> [password]   add entry",
   "  list              list names (user:****)",
   "  get <name>        print user:password",
   "  delete <name>     remove entry"]

/-- `main` (src/main.rs lines 127-218). -/
def mainRun (args : List String) (stdin : Nat → String) (r : ReadResult)
    (salt nonce : List Nat) (pathOk : Bool) : Except StoreError MainOut :=
  if pathOk = false then .error .noDataDir
  else if cmdOf args = "init" then
    let pass := stdin 0
    let data := save_entries [] (keyOpt pass) salt nonce
    .ok ⟨["RevaultPass init. Encryption is recommended.",
          if pass = "" then
            "Store created (unencrypted). Use \x27revaultpass init\x27 again to set a key."
          else "Store created. Your data is encrypted with your key."],
         some data⟩
  else if cmdOf args = "add" then
    let name := (args.get? 2).getD ""
    let user := (args.get? 3).getD ""
    let passEntry := args.get? 4
    if name = "" then
      .ok ⟨["usage: revaultpass add <name> <user> [password]"], none⟩
    else
      let password := match passEntry with | some p => p | none => stdin 0
      let passphrase := stdin (match passEntry with | some _ => 0 | none => 1)
      match load_entries r (keyOpt passphrase) with
      | .error e => .error e
      | .ok entries =>
        if entries.any (fun e => e.name == name) then
          .ok ⟨["Name already exists. Use a different name or delete first."], none⟩
        else
          .ok ⟨["Saved."],
               some (save_entries (entries ++ [⟨name, user, password⟩])
                 (keyOpt passphrase) salt nonce)⟩
  else if cmdOf args = "list" then
    match load_entries r (keyOpt (stdin 0)) with
    | .error e => .error e
    | .ok entries =>
      if entries.isEmpty then .ok ⟨["(none)"], none⟩
      else
        .ok ⟨entries.map (fun e => "  " ++ e.name ++ "  ->  " ++ e.user ++ ":****"),
             none⟩
  else if cmdOf args = "get" then
    let name := (args.get? 2).getD ""
    if name = "" then .ok ⟨["usage: revaultpass get <name>"], none⟩
    else
      match load_entries r (keyOpt (stdin 0)) with
      | .error e => .error e
      | .ok entries =>
        match entries.find? (fun e => e.name == name) with
        | some e => .ok ⟨[e.user ++ ":" ++ e.password], none⟩
        | none => .ok ⟨["Not found."], none⟩
  else if cmdOf args = "delete" then
    let name := (args.get? 2).getD ""
    if name = "" then .ok ⟨["usage: revaultpass delete <name>"], none⟩
    else
      let key := keyOpt (stdin 0)
      match load_entries r key with
      | .error e => .error e
      | .ok entries =>
        let kept := entries.filter (fun e => e.name != name)
        if kept.length = entries.length then .ok ⟨["Not found."], none⟩
        else .ok ⟨["Deleted."], some (save_entries kept key salt nonce)⟩
  else .ok ⟨helpLines, none⟩

/-! ### Claim C9 -/

/-- Claim C9 counterexample: a `list` invocation on an encrypted store with
no passphrase supplied makes `main` return the error (nonzero process exit
status), not a success result. -/
theorem C9_counterexample :
    mainRun ["prog", "list"] (fun _ => "") (.ok (MAGIC_ENCRYPTED ++ List.replicate 44 0))
      [] [] true = .error .missingKey := by
  rfl

/-- The optional-passphrase argument of the one `load_entries` call an
invocation actually performs, if it performs one: `add`, `list`, `get` and
`delete` past their usage checks load the store once with the prompted key,
while `init`, `help`/unknown commands and the usage-error paths never load
(src/main.rs lines 127-218). -/
def loadsWith (args : List String) (stdin : Nat → String) : Option (Option String) :=
  if cmdOf args = "add" then
    if (args.get? 2).getD "" = "" then none
    else some (keyOpt (stdin (match args.get? 4 with | some _ => 0 | none => 1)))
  else if cmdOf args = "list" then some (keyOpt (stdin 0))
  else if cmdOf args = "get" then
    if (args.get? 2).getD "" = "" then none
    else some (keyOpt (stdin 0))
  else if cmdOf args = "delete" then
    if (args.get? 2).getD "" = "" then none
    else some (keyOpt (stdin 0))
  else none

/-- Claim C9 (amended): the top-level dispatch completes with a success
result (exit status 0) for every command whenever the store load it
actually performs (if any) succeeds, including soft failures reported only
as printed text (usage errors, duplicate names, missing entries, unknown
commands); but when an internal operation fails, `main` propagates the
error and the exit status is nonzero, as the counterexample shows. -/
theorem C9_exit_zero_when_store_ops_succeed (args : List String) (stdin : Nat → String)
    (r : ReadResult) (salt nonce : List Nat)
    (hload : ∀ k, loadsWith args stdin = some k → ∃ es, load_entries r k = Except.ok es) :
    ∃ out, mainRun args stdin r salt nonce true = .ok out := by
  unfold mainRun
  rw [if_neg (by decide)]
  by_cases h1 : cmdOf args = "init"
  · rw [if_pos h1]; exact ⟨_, rfl⟩
  rw [if_neg h1]
  by_cases h2 : cmdOf args = "add"
  · rw [if_pos h2]
    by_cases hname : (args.get? 2).getD "" = ""
    · rw [if_pos hname]; exact ⟨_, rfl⟩
    · rw [if_neg hname]
      dsimp only
      have hw : loadsWith args stdin
          = some (keyOpt (stdin (match args.get? 4 with | some _ => 0 | none => 1))) := by
        unfold loadsWith
        rw [if_pos h2, if_neg hname]
      obtain ⟨es, he⟩ := hload _ hw
      rw [he]
      dsimp only
      by_cases hdup : (es.any (fun e => e.name == (args.get? 2).getD "")) = true
      · rw [if_pos hdup]; exact ⟨_, rfl⟩
      · rw [if_neg hdup]; exact ⟨_, rfl⟩
  rw [if_neg h2]
  by_cases h3 : cmdOf args = "list"
  · rw [if_pos h3]
    have hw : loadsWith args stdin = some (keyOpt (stdin 0)) := by
      unfold loadsWith
      rw [if_neg h2, if_pos h3]
    obtain ⟨es, he⟩ := hload _ hw
    rw [he]
    dsimp only
    by_cases hemp : es.isEmpty = true
    · rw [if_pos hemp]; exact ⟨_, rfl⟩
    · rw [if_neg hemp]; exact ⟨_, rfl⟩
  rw [if_neg h3]
  by_cases h4 : cmdOf args = "get"
  · rw [if_pos h4]
    by_cases hname : (args.get? 2).getD "" = ""
    · rw [if_pos hname]; exact ⟨_, rfl⟩
    · rw [if_neg hname]
      have hw : loadsWith args stdin = some (keyOpt (stdin 0)) := by
        unfold loadsWith
        rw [if_neg h2, if_neg h3, if_pos h4, if_neg hname]
      obtain ⟨es, he⟩ := hload _ hw
      rw [he]
      dsimp only
      cases hf : es.find? (fun e => e.name == (args.get? 2).getD "") with
      | none => exact ⟨_, rfl⟩
      | some e => exact ⟨_, rfl⟩
  rw [if_neg h4]
  by_cases h5 : cmdOf args = "delete"
  · rw [if_pos h5]
    by_cases hname : (args.get? 2).getD "" = ""
    · rw [if_pos hname]; exact ⟨_, rfl⟩
    · rw [if_neg hname]
      dsimp only
      have hw : loadsWith args stdin = some (keyOpt (stdin 0)) := by
        unfold loadsWith
        rw [if_neg h2, if_neg h3, if_neg h4, if_pos h5, if_neg hname]
      obtain ⟨es, he⟩ := hload _ hw
      rw [he]
      dsimp only
      by_cases hlen : (es.filter (fun e => e.name != (args.get? 2).getD "")).length
          = es.length
      · rw [if_pos hlen]; exact ⟨_, rfl⟩
      · rw [if_neg hlen]; exact ⟨_, rfl⟩
  rw [if_neg h5]
  exact ⟨_, rfl⟩

theorem C9_witness :
    (∀ k, loadsWith ["prog", "list"] (fun _ => "") = some k →
      ∃ es, load_entries ReadResult.notFound k = Except.ok es) ∧
    ∃ out, mainRun ["prog", "list"] (fun _ => "") .notFound [] [] true = .ok out := by
  have hh : ∀ k, loadsWith ["prog", "list"] (fun _ => "") = some k →
      ∃ es, load_entries ReadResult.notFound k = Except.ok es := by
    intro k hk
    have h0 : loadsWith ["prog", "list"] (fun _ => "") = some none := rfl
    rw [h0] at hk
    injection hk with h
    subst h
    exact ⟨[], rfl⟩
  exact ⟨hh,
    C9_exit_zero_when_store_ops_succeed ["prog", "list"] (fun _ => "") .notFound [] [] hh⟩

/-! ### Claim C10 -/

/-- Claim C10: a `delete` invocation whose name matches no record in the
loaded store performs no save at all: it reports "Not found." and the
store file content is untouched. -/
theorem C10_delete_absent_no_write (name : String) (stdin : Nat → String)
    (r : ReadResult) (salt nonce : List Nat) (es : List Entry)
    (hname : name ≠ "")
    (hload : load_entries r (keyOpt (stdin 0)) = .ok es)
    (habsent : ∀ e ∈ es, e.name ≠ name) :
    mainRun ["prog", "delete", name] stdin r salt nonce true
      = .ok ⟨["Not found."], none⟩ := by
  have hcmd : cmdOf ["prog", "delete", name] = "delete" := rfl
  unfold mainRun
  rw [if_neg (by decide), if_neg (by rw [hcmd]; decide), if_neg (by rw [hcmd]; decide),
    if_neg (by rw [hcmd]; decide), if_neg (by rw [hcmd]; decide), if_pos hcmd]
  dsimp only
  have hget : ((["prog", "delete", name].get? 2).getD "") = name := rfl
  rw [hget, if_neg hname, hload]
  dsimp only
  have hkeep : es.filter (fun e => e.name != name) = es :=
    List.filter_eq_self.mpr (fun e he => by simpa using habsent e he)
  rw [hkeep, if_pos rfl]

theorem C10_witness :
    ("x" : String) ≠ "" ∧
    load_entries ReadResult.notFound (keyOpt "") = .ok [] ∧
    mainRun ["prog", "delete", "x"] (fun _ => "") .notFound [] [] true
      = .ok ⟨["Not found."], none⟩ :=
  ⟨by decide, rfl,
    C10_delete_absent_no_write "x" (fun _ => "") .notFound [] [] []
      (by decide) rfl (by intro e he; cases he)⟩

end RevaultPass
